import Mathlib

/-!
# certsubs: certificate name harvesting

A shallow embedding of `main.go` of `theblackturtle/certsubs`:

* `removeAsteriskLabel`  wildcard-label stripping,
* `newUniqueElements` / `uniqAppend`  the case-insensitive merge,
* `namesFromCert`  Common Name and DNS names of a certificate,
* `getCert`  the port loop, with its deferred calls made explicit,
* `nextResolverAddress`  the choice of a resolver.

Go strings are modelled as lists of characters (valid UTF-8 text).  The Go
standard library function `strings.ToLower` is a parameter `ToLower` of every
definition that calls it; `ToLowerASCII` is its fast path for ASCII text and is
used to evaluate the definitions on concrete host names.
-/

namespace Certsubs

/-- A Go string, as the list of its characters. -/
abbrev Str := List Char

/-! ## Standard library: `strings.Split`, `strings.Join`, `strings.TrimSpace` -/

/-- Go `unicode.IsSpace`: the Latin-1 white space of its `switch`, and above
Latin-1 the `White_Space` range table. -/
def isSpace (c : Char) : Bool :=
  let r := c.toNat
  if r ≤ 0xFF then
    r == 0x09 || r == 0x0A || r == 0x0B || r == 0x0C || r == 0x0D || r == 0x20
      || r == 0x85 || r == 0xA0
  else
    r == 0x1680 || (0x2000 ≤ r && r ≤ 0x200A) || r == 0x2028 || r == 0x2029
      || r == 0x202F || r == 0x205F || r == 0x3000

/-- Go `strings.TrimSpace`: leading and trailing white space removed. -/
def TrimSpace (s : Str) : Str :=
  (s.dropWhile isSpace).rdropWhile isSpace

/-- Go `strings.Split(s, ".")`. -/
def Split (s : Str) : List Str :=
  s.splitOn '.'

/-- Go `strings.Join(labels, ".")`. -/
def Join (labels : List Str) : Str :=
  List.intercalate ['.'] labels

/-- The one-character string `*`. -/
def star : Str := ['*']

/-! ## `removeAsteriskLabel` -/

/-- The `for i := len(labels) - 1; i >= 0; i--` loop of `removeAsteriskLabel`.
The first argument is `i + 1` (so `0` is loop exit), the second the current
value of `index`; the result is the value of `index` after the loop. -/
def scanLabels (labels : List Str) : Nat → Nat → Nat
  | 0, index => index
  | i + 1, index =>
    if TrimSpace (labels.getD i []) = star then index
    else scanLabels labels i i

/-- Go `removeAsteriskLabel`: `index` starts at its zero value. -/
def removeAsteriskLabel (s : Str) : Str :=
  let labels := Split s
  let index := scanLabels labels labels.length 0
  if index = labels.length - 1 then []
  else Join (labels.drop index)

/-! ## `newUniqueElements` and `uniqAppend` -/

/-- One iteration of the `for _, av := range add` loop of
`newUniqueElements`: both inner loops search with `break`, and `n` grows by the
lower-cased entry when neither search succeeds. -/
def uniqueStep (ToLower : Str → Str) (orig : List Str) (n : List Str) (av : Str) :
    List Str :=
  let s := ToLower av
  let found := orig.any (fun ov => s == ToLower ov)
  let found := if !found then n.any (fun nv => s == nv) else found
  if !found then n ++ [s] else n

/-- Go `newUniqueElements(orig, add...)`. -/
def newUniqueElements (ToLower : Str → Str) (orig add : List Str) : List Str :=
  add.foldl (uniqueStep ToLower orig) []

/-- Go `uniqAppend(orig, add...)`. -/
def uniqAppend (ToLower : Str → Str) (orig add : List Str) : List Str :=
  orig ++ newUniqueElements ToLower orig add

/-! ## `namesFromCert` -/

/-- An entry of `cert.Subject.Names`: the object identifier `Type` and the
value as `fmt.Sprintf("%s", ...)` prints it. -/
structure AttributeTypeAndValue where
  oid : List Int
  Value : Str
deriving DecidableEq

/-- The fields of `x509.Certificate` that `namesFromCert` reads. -/
structure Certificate where
  SubjectNames : List AttributeTypeAndValue
  DNSNames : List Str
deriving DecidableEq

/-- The first loop of `namesFromCert`: the value of `cn` after the scan of the
subject names for the object identifier `2.5.4.3`. -/
def subjectCN : List AttributeTypeAndValue → Str
  | [] => []
  | name :: rest =>
    if name.oid.length = 4 ∧ name.oid.getD 0 0 = 2 ∧ name.oid.getD 1 0 = 5
        ∧ name.oid.getD 2 0 = 4 then
      if name.oid.getD 3 0 = 3 then name.Value else subjectCN rest
    else subjectCN rest

/-- One iteration of the `for _, name := range cert.DNSNames` loop. -/
def dnsNameStep (ToLower : Str → Str) (subdomains : List Str) (name : Str) : List Str :=
  let n := removeAsteriskLabel name
  if n ≠ [] then uniqAppend ToLower subdomains [n] else subdomains

/-- The value of `subdomains` before the loop over the DNS names. -/
def commonNameList (cert : Certificate) : List Str :=
  let commonName := removeAsteriskLabel (subjectCN cert.SubjectNames)
  if commonName ≠ [] then [commonName] else []

/-- Go `namesFromCert`. -/
def namesFromCert (ToLower : Str → Str) (cert : Certificate) : List Str :=
  cert.DNSNames.foldl (dnsNameStep ToLower) (commonNameList cert)

/-! ## `getCert` -/

/-- What is received from `errChan`: an error (of the handshake, or the
timeout) or `nil`, in which case the leaf certificate `PeerCertificates[0]`
is read. -/
inductive Handshake where
  | failed
  | done (leaf : Certificate)
deriving DecidableEq

/-- The result of `dialContext`: an error, or a connection together with what
its handshake will yield. -/
inductive Dial where
  | refused
  | connected (handshake : Handshake)
deriving DecidableEq

/-- A call registered by `defer`. -/
inductive Deferred where
  | cancel
  | close (conn : Nat)
deriving DecidableEq

/-- The state of a call of `getCert`: the accumulated `certs`, the stack of
deferred calls (most recent first), the number of connections opened so far
(the next connection gets this number) and the connections that are open. -/
structure FetchState where
  certs : List Str
  deferred : List Deferred
  opened : Nat
  openConns : List Nat
deriving DecidableEq

/-- The state on entry to `getCert`. -/
def FetchState.init : FetchState :=
  { certs := [], deferred := [], opened := 0, openConns := [] }

/-- One iteration of the `for _, port := range ports` loop of `getCert`. -/
def portStep (ToLower : Str → Str) (dialContext : Str → Dial) (addr : Str)
    (st : FetchState) (port : Str) : FetchState :=
  -- defer cancel()
  let st := { st with deferred := Deferred.cancel :: st.deferred }
  match dialContext (addr ++ [':'] ++ port) with
  | Dial.refused => st
  | Dial.connected handshake =>
    -- defer conn.Close()
    let conn := st.opened
    let st := { st with deferred := Deferred.close conn :: st.deferred,
                        opened := conn + 1,
                        openConns := st.openConns ++ [conn] }
    match handshake with
    | Handshake.failed => st
    | Handshake.done cert => { st with certs := st.certs ++ namesFromCert ToLower cert }

/-- The state when the port loop of `getCert` has run over `ports`. -/
def getCertLoop (ToLower : Str → Str) (dialContext : Str → Dial) (addr : Str)
    (ports : List Str) : FetchState :=
  ports.foldl (portStep ToLower dialContext addr) FetchState.init

/-- The deferred calls, run at `return` in last-in-first-out order. -/
def runDeferred : List Deferred → List Nat → List Nat
  | [], openConns => openConns
  | Deferred.cancel :: rest, openConns => runDeferred rest openConns
  | Deferred.close conn :: rest, openConns => runDeferred rest (openConns.erase conn)

/-- Go `getCert`: the value returned. -/
def getCert (ToLower : Str → Str) (dialContext : Str → Dial) (addr : Str)
    (ports : List Str) : List Str :=
  (getCertLoop ToLower dialContext addr ports).certs

/-- The connections still open once `getCert` has returned. -/
def openAfterReturn (ToLower : Str → Str) (dialContext : Str → Dial) (addr : Str)
    (ports : List Str) : List Nat :=
  let st := getCertLoop ToLower dialContext addr ports
  runDeferred st.deferred st.openConns

/-! ## `nextResolverAddress` -/

/-- The resolver pool. -/
def PublicResolvers : List Str :=
  ["1.1.1.1:53".data, "8.8.8.8:53".data, "64.6.64.6:53".data, "77.88.8.8:53".data,
   "74.82.42.42:53".data, "1.0.0.1:53".data, "8.8.4.4:53".data, "77.88.8.1:53".data]

/-- The index `rnd % len(resolvers)` computed by `nextResolverAddress`. -/
def resolverIndex (rnd : Nat) : Nat :=
  rnd % PublicResolvers.length

/-- Go `nextResolverAddress`, as a function of the value `rnd` of `rand.Int()`;
`none` stands for an index out of range. -/
def nextResolverAddress (rnd : Nat) : Option Str :=
  PublicResolvers.get? (resolverIndex rnd)

/-! ## `strings.ToLower` on ASCII text -/

/-- The ASCII branch of Go `strings.ToLower`: `c += 'a' - 'A'` for
`'A' <= c && c <= 'Z'`. -/
def lowerASCII (c : Char) : Char :=
  if 65 ≤ c.toNat ∧ c.toNat ≤ 90 then Char.ofNat (c.toNat + 32) else c

/-- Go `strings.ToLower` on ASCII text. -/
def ToLowerASCII (s : Str) : Str :=
  s.map lowerASCII

/-! ## Specification-side definitions -/

/-- The labels lying strictly to the right of the rightmost `*` label, and
all labels when no label is `*`. -/
def rightOfLastStar (labels : List Str) : List Str :=
  labels.rtakeWhile (fun l => l != star)

/-- The candidates kept by a merge, as the specification words it: going
through the candidates in order, with `earlier` the candidates already gone
through, a candidate is kept, lower-cased, exactly when its lower-cased form
equals the lower-cased form of no entry of `existing` and of no earlier
candidate. -/
def keptCandidates (ToLower : Str → Str) (existing : List Str) :
    List Str → List Str → List Str
  | _, [] => []
  | earlier, c :: rest =>
    if (∀ e ∈ existing, ToLower c ≠ ToLower e) ∧ (∀ d ∈ earlier, ToLower c ≠ ToLower d) then
      ToLower c :: keptCandidates ToLower existing (earlier ++ [c]) rest
    else keptCandidates ToLower existing (earlier ++ [c]) rest

/-- The merge of the specification: `existing` followed by the kept
candidates. -/
def mergeSpec (ToLower : Str → Str) (existing candidates : List Str) : List Str :=
  existing ++ keptCandidates ToLower existing [] candidates

/-- The names contributed by one port in `getCert`: those of the leaf
certificate when connection and handshake succeed, none otherwise. -/
def portNames (ToLower : Str → Str) (dialContext : Str → Dial) (addr port : Str) :
    List Str :=
  match dialContext (addr ++ [':'] ++ port) with
  | Dial.connected (Handshake.done cert) => namesFromCert ToLower cert
  | _ => []

/-- The non-empty results of wildcard-label stripping on the DNS names. -/
def strippedDNSNames (cert : Certificate) : List Str :=
  (cert.DNSNames.map removeAsteriskLabel).filter (fun n => n != [])

/-- A Name Set: no two entries are equal under case-insensitive
comparison, that is, have the same lower-cased form. -/
abbrev NameSet (ToLower : Str → Str) (names : List Str) : Prop :=
  names.Pairwise (fun a b => ToLower a ≠ ToLower b)

/-- A certificate with Common Name `example.com` and no DNS names. -/
def exampleCert : Certificate :=
  { SubjectNames := [{ oid := [2, 5, 4, 3], Value := "example.com".data }],
    DNSNames := [] }

/-- A network in which every port accepts the connection and presents
`exampleCert`. -/
def sameCertDial : Str → Dial :=
  fun _ => Dial.connected (Handshake.done exampleCert)

/-- A certificate whose Common Name and DNS names differ in letter case and
by a leading wildcard label. -/
def mixedCaseCert : Certificate :=
  { SubjectNames := [{ oid := [2, 5, 4, 3], Value := "Example.COM".data }],
    DNSNames := ["*.example.com".data, "WWW.example.com".data, "www.Example.com".data] }

/-! ## Lemmas on `removeAsteriskLabel` -/

theorem Split_ne_nil (s : Str) : Split s ≠ [] :=
  List.splitOnP_ne_nil _ s

theorem Split_length_pos (s : Str) : 0 < (Split s).length :=
  List.length_pos.mpr (Split_ne_nil s)

theorem Join_Split (s : Str) : Join (Split s) = s :=
  List.intercalate_splitOn s '.'

theorem Split_star_dot (d : Str) : Split (star ++ ['.'] ++ d) = star :: Split d := by
  simp [Split, star, List.splitOn, List.modifyHead]

theorem scanLabels_zero (labels : List Str) (index : Nat) :
    scanLabels labels 0 index = index := rfl

theorem scanLabels_star (labels : List Str) (i index : Nat)
    (h : TrimSpace (labels.getD i []) = star) :
    scanLabels labels (i + 1) index = index := by
  rw [scanLabels, if_pos h]

theorem scanLabels_step (labels : List Str) (i index : Nat)
    (h : TrimSpace (labels.getD i []) ≠ star) :
    scanLabels labels (i + 1) index = scanLabels labels i i := by
  rw [scanLabels, if_neg h]

/-- Scanning down over `m` labels none of which trims to `*`. -/
theorem scanLabels_skip (labels : List Str) (j : Nat) :
    ∀ (m index : Nat),
      (∀ k, j ≤ k → k < j + m → TrimSpace (labels.getD k []) ≠ star) →
      scanLabels labels (j + m) index = scanLabels labels j (if m = 0 then index else j) := by
  intro m
  induction m with
  | zero => intro index _; simp
  | succ m ih =>
    intro index h
    have hm : TrimSpace (labels.getD (j + m) []) ≠ star := h (j + m) (by omega) (by omega)
    rw [← Nat.add_assoc, scanLabels_step labels (j + m) index hm,
      ih (j + m) (fun k h1 h2 => h k h1 (by omega))]
    by_cases hz : m = 0
    · subst hz; simp
    · simp [hz]

/-- A domain of exactly one label is stripped to the empty string. -/
theorem removeAsteriskLabel_single (s : Str) (h : (Split s).length = 1) :
    removeAsteriskLabel s = [] := by
  have hscan : scanLabels (Split s) 1 0 = 0 := by
    by_cases hs : TrimSpace ((Split s).getD 0 []) = star
    · exact scanLabels_star _ 0 0 hs
    · rw [scanLabels_step _ 0 0 hs]; rfl
  simp [removeAsteriskLabel, h, hscan]

/-- When the rightmost of at least two labels trims to `*`, `index` keeps
its zero value and the whole domain is returned. -/
theorem removeAsteriskLabel_last_star (s : Str) (h2 : 2 ≤ (Split s).length)
    (hlast : TrimSpace ((Split s).getD ((Split s).length - 1) []) = star) :
    removeAsteriskLabel s = s := by
  obtain ⟨n, hn⟩ : ∃ n, (Split s).length = n + 1 := ⟨(Split s).length - 1, by omega⟩
  have hscan : scanLabels (Split s) (Split s).length 0 = 0 := by
    rw [hn] at hlast ⊢
    exact scanLabels_star _ n 0 (by simpa using hlast)
  have hne : ¬ (0 = (Split s).length - 1) := by omega
  simp only [removeAsteriskLabel, hscan, if_neg hne, List.drop_zero]
  exact Join_Split s

/-- With a label that trims to `*` at position `pre.length` and none to its
right, the scan stops with `index` at the first label of `suf`. -/
theorem scanLabels_append (pre suf : List Str) (l : Str) (hl : TrimSpace l = star)
    (hsuf : ∀ x ∈ suf, TrimSpace x ≠ star) (hne : suf ≠ []) :
    scanLabels (pre ++ l :: suf) (pre ++ l :: suf).length 0 = pre.length + 1 := by
  have hlen : (pre ++ l :: suf).length = (pre.length + 1) + suf.length := by
    simp; omega
  have hpos : suf.length ≠ 0 := by
    intro h; exact hne (List.length_eq_zero.mp h)
  rw [hlen, scanLabels_skip (pre ++ l :: suf) (pre.length + 1) suf.length 0, if_neg hpos]
  · apply scanLabels_star
    rw [List.getD_eq_getElem?_getD, List.getElem?_append_right (le_refl _)]
    simpa using hl
  · intro k hk1 hk2
    have hk : (pre ++ l :: suf).getD k [] = suf.getD (k - (pre.length + 1)) [] := by
      simp only [List.getD_eq_getElem?_getD]
      rw [List.getElem?_append_right (by omega)]
      obtain ⟨d, rfl⟩ : ∃ d, k = pre.length + 1 + d := ⟨k - (pre.length + 1), by omega⟩
      have e1 : pre.length + 1 + d - pre.length = d + 1 := by omega
      have e2 : pre.length + 1 + d - (pre.length + 1) = d := by omega
      rw [e1, e2, List.getElem?_cons_succ]
    rw [hk]
    have hin : k - (pre.length + 1) < suf.length := by omega
    have : suf.getD (k - (pre.length + 1)) [] ∈ suf := by
      rw [List.getD_eq_getElem _ _ hin]; exact List.getElem_mem _
    exact hsuf _ this

/-- When no label trims to `*`, the scan reaches index `0`. -/
theorem scanLabels_no_star (labels : List Str) (h : ∀ x ∈ labels, TrimSpace x ≠ star) :
    scanLabels labels labels.length 0 = 0 := by
  have := scanLabels_skip labels 0 labels.length 0 (by
    intro k _ hk
    have hk' : k < labels.length := by omega
    rw [List.getD_eq_getElem _ _ hk']
    exact h _ (List.getElem_mem _))
  simp only [Nat.zero_add] at this
  rw [this, scanLabels_zero]
  split <;> rfl

/-- The result when some label trims to `*` and none to its right does. -/
theorem removeAsteriskLabel_after_star (s : Str) (pre suf : List Str) (l : Str)
    (hS : Split s = pre ++ l :: suf) (hl : TrimSpace l = star)
    (hsuf : ∀ x ∈ suf, TrimSpace x ≠ star) (hne : suf ≠ []) :
    removeAsteriskLabel s = if suf.length = 1 then [] else Join suf := by
  have hscan := scanLabels_append pre suf l hl hsuf hne
  have hlen : (pre ++ l :: suf).length - 1 = pre.length + suf.length := by simp
  have hdrop : (pre ++ l :: suf).drop (pre.length + 1) = suf := by
    rw [List.drop_append]; rfl
  simp only [removeAsteriskLabel, hS, hscan, hlen, hdrop]
  by_cases h1 : suf.length = 1
  · simp [h1]
  · have : ¬ (pre.length + 1 = pre.length + suf.length) := by omega
    simp [h1, this]

/-- The result when no label trims to `*`. -/
theorem removeAsteriskLabel_no_star (s : Str) (h : ∀ x ∈ Split s, TrimSpace x ≠ star) :
    removeAsteriskLabel s = if (Split s).length = 1 then [] else s := by
  have hscan := scanLabels_no_star (Split s) h
  have hpos := Split_length_pos s
  simp only [removeAsteriskLabel, hscan, List.drop_zero, Join_Split]
  by_cases h1 : (Split s).length = 1
  · simp [h1]
  · have : ¬ (0 = (Split s).length - 1) := by omega
    simp [h1, this]

theorem rdropWhile_append_rtakeWhile {α : Type} (p : α → Bool) (l : List α) :
    l.rdropWhile p ++ l.rtakeWhile p = l := by
  rw [List.rdropWhile, List.rtakeWhile, ← List.reverse_append,
    List.takeWhile_append_dropWhile, List.reverse_reverse]

/-- Without a `*` label, all labels lie to the right of the rightmost `*`. -/
theorem rightOfLastStar_no_star (labels : List Str) (h : star ∉ labels) :
    rightOfLastStar labels = labels := by
  rw [rightOfLastStar, List.rtakeWhile_eq_self_iff]
  intro x hx
  simp only [bne_iff_ne, ne_eq]
  rintro rfl
  exact h hx

/-- The labels to the right of a `*` label that is followed by no other. -/
theorem rightOfLastStar_append (pre suf : List Str) (h : star ∉ suf) :
    rightOfLastStar (pre ++ star :: suf) = suf := by
  induction suf using List.reverseRecOn with
  | nil =>
    rw [rightOfLastStar]
    exact List.rtakeWhile_concat_neg _ _ _ (by simp)
  | append_singleton suf x ih =>
    have hx : x ≠ star := by
      rintro rfl; exact h (by simp)
    have hs : star ∉ suf := fun hm => h (by simp [hm])
    have e : pre ++ star :: (suf ++ [x]) = (pre ++ star :: suf) ++ [x] := by simp
    rw [rightOfLastStar, e, List.rtakeWhile_concat_pos _ _ _ (by simpa using hx)]
    rw [rightOfLastStar] at ih
    rw [ih hs]

/-! ## Lemmas on the merge -/

/-- The two searches of `uniqueStep` as one condition. -/
theorem uniqueStep_eq (ToLower : Str → Str) (orig n : List Str) (av : Str) :
    uniqueStep ToLower orig n av =
      if (∃ ov ∈ orig, ToLower av = ToLower ov) ∨ ToLower av ∈ n then n
      else n ++ [ToLower av] := by
  unfold uniqueStep
  by_cases h1 : ∃ ov ∈ orig, ToLower av = ToLower ov
  · have : (orig.any fun ov => ToLower av == ToLower ov) = true := by
      simpa [List.any_eq_true] using h1
    simp [this, h1]
  · have h1f : (orig.any fun ov => ToLower av == ToLower ov) = false := by
      rw [Bool.eq_false_iff]
      simpa [List.any_eq_true] using h1
    by_cases h2 : ToLower av ∈ n
    · have : (n.any fun nv => ToLower av == nv) = true := by
        simpa [List.any_eq_true] using h2
      simp [h1f, this, h2]
    · have : (n.any fun nv => ToLower av == nv) = false := by
        rw [Bool.eq_false_iff]
        simpa [List.any_eq_true] using h2
      simp [h1f, this, h1, h2]

/-- The loop of `newUniqueElements` from an intermediate `n`: when `n` holds
exactly the lower-cased earlier candidates that match no entry of `orig`, the
loop appends the candidates the specification keeps. -/
theorem foldl_uniqueStep_spec (ToLower : Str → Str) (orig : List Str) :
    ∀ (add n earlier : List Str),
      (∀ x, x ∈ n ↔ (x ∈ earlier.map ToLower ∧ ∀ e ∈ orig, x ≠ ToLower e)) →
      add.foldl (uniqueStep ToLower orig) n
        = n ++ keptCandidates ToLower orig earlier add := by
  intro add
  induction add with
  | nil => intro n earlier _; simp [keptCandidates]
  | cons c rest ih =>
    intro n earlier hinv
    rw [List.foldl_cons, uniqueStep_eq, keptCandidates]
    by_cases h1 : ∃ ov ∈ orig, ToLower c = ToLower ov
    · obtain ⟨ov, hov, hc⟩ := h1
      have hk : ¬ ((∀ e ∈ orig, ToLower c ≠ ToLower e)
          ∧ (∀ d ∈ earlier, ToLower c ≠ ToLower d)) := fun hh => hh.1 ov hov hc
      rw [if_pos (Or.inl ⟨ov, hov, hc⟩), if_neg hk]
      apply ih
      intro x
      rw [hinv x]
      constructor
      · rintro ⟨hx, hno⟩
        exact ⟨by simp only [List.map_append, List.mem_append]; exact Or.inl hx, hno⟩
      · rintro ⟨hx, hno⟩
        simp only [List.map_append, List.mem_append, List.map_cons, List.map_nil,
          List.mem_singleton] at hx
        rcases hx with hx | hx
        · exact ⟨hx, hno⟩
        · exact absurd (hx ▸ hc) (hno ov hov)
    · have hno : ∀ e ∈ orig, ToLower c ≠ ToLower e := fun e he hc => h1 ⟨e, he, hc⟩
      by_cases h2 : ToLower c ∈ n
      · have hear : ToLower c ∈ earlier.map ToLower := ((hinv _).1 h2).1
        obtain ⟨d, hd, hdc⟩ := List.mem_map.mp hear
        have hk : ¬ ((∀ e ∈ orig, ToLower c ≠ ToLower e)
            ∧ (∀ d ∈ earlier, ToLower c ≠ ToLower d)) := fun hh => hh.2 d hd hdc.symm
        rw [if_pos (Or.inr h2), if_neg hk]
        apply ih
        intro x
        rw [hinv x]
        constructor
        · rintro ⟨hx, hno⟩
          exact ⟨by simp only [List.map_append, List.mem_append]; exact Or.inl hx, hno⟩
        · rintro ⟨hx, hnox⟩
          simp only [List.map_append, List.mem_append, List.map_cons, List.map_nil,
            List.mem_singleton] at hx
          rcases hx with hx | hx
          · exact ⟨hx, hnox⟩
          · exact (hinv x).1 (hx ▸ h2)
      · have hear : ∀ d ∈ earlier, ToLower c ≠ ToLower d := by
          intro d hd hdc
          exact h2 ((hinv _).2 ⟨List.mem_map.mpr ⟨d, hd, hdc.symm⟩, hno⟩)
        rw [if_neg (by rintro (h | h); exacts [h1 h, h2 h]), if_pos ⟨hno, hear⟩]
        rw [ih (n ++ [ToLower c]) (earlier ++ [c])]
        · simp
        · intro x
          simp only [List.mem_append, List.mem_singleton, List.map_append, List.map_cons,
            List.map_nil]
          rw [hinv x]
          constructor
          · rintro (⟨hx, hnox⟩ | rfl)
            · exact ⟨Or.inl hx, hnox⟩
            · exact ⟨Or.inr rfl, hno⟩
          · rintro ⟨hx | rfl, hnox⟩
            · exact Or.inl ⟨hx, hnox⟩
            · exact Or.inr rfl

/-- Every entry produced by the loop of `newUniqueElements` is a lower-cased
candidate or was in `n` before. -/
theorem mem_foldl_uniqueStep (ToLower : Str → Str) (orig : List Str) :
    ∀ (add n : List Str) (x : Str), x ∈ add.foldl (uniqueStep ToLower orig) n →
      x ∈ n ∨ ∃ c ∈ add, x = ToLower c := by
  intro add
  induction add with
  | nil => intro n x hx; exact Or.inl hx
  | cons c rest ih =>
    intro n x hx
    rw [List.foldl_cons, uniqueStep_eq] at hx
    rcases ih _ x hx with h | ⟨d, hd, rfl⟩
    · split at h
      · exact Or.inl h
      · rcases List.mem_append.mp h with h | h
        · exact Or.inl h
        · exact Or.inr ⟨c, by simp, by simpa using h⟩
    · exact Or.inr ⟨d, by simp [hd], rfl⟩

/-- With an idempotent `ToLower`, the entries of `newUniqueElements` are
fixed by `ToLower`. -/
theorem newUniqueElements_lower (ToLower : Str → Str)
    (hidem : ∀ s, ToLower (ToLower s) = ToLower s) (orig add : List Str) :
    ∀ x ∈ newUniqueElements ToLower orig add, ToLower x = x := by
  intro x hx
  rcases mem_foldl_uniqueStep ToLower orig add [] x hx with h | ⟨c, _, rfl⟩
  · simp at h
  · exact hidem c

/-- The loop of `newUniqueElements` started from `fixed ++ m` against `orig`
equals the loop started from `m` against `orig ++ fixed`, when the entries of
`fixed` are fixed by `ToLower`. -/
theorem foldl_uniqueStep_shift (ToLower : Str → Str) (orig fixed : List Str)
    (hfix : ∀ x ∈ fixed, ToLower x = x) :
    ∀ (add m : List Str),
      add.foldl (uniqueStep ToLower orig) (fixed ++ m)
        = fixed ++ add.foldl (uniqueStep ToLower (orig ++ fixed)) m := by
  intro add
  induction add with
  | nil => intro m; rfl
  | cons c rest ih =>
    intro m
    rw [List.foldl_cons, List.foldl_cons, uniqueStep_eq, uniqueStep_eq]
    have hiff : ((∃ ov ∈ orig, ToLower c = ToLower ov) ∨ ToLower c ∈ fixed ++ m) ↔
        ((∃ ov ∈ orig ++ fixed, ToLower c = ToLower ov) ∨ ToLower c ∈ m) := by
      constructor
      · rintro (⟨ov, hov, h⟩ | h)
        · exact Or.inl ⟨ov, List.mem_append.mpr (Or.inl hov), h⟩
        · rcases List.mem_append.mp h with h | h
          · exact Or.inl ⟨ToLower c, List.mem_append.mpr (Or.inr h), (hfix _ h).symm⟩
          · exact Or.inr h
      · rintro (⟨ov, hov, h⟩ | h)
        · rcases List.mem_append.mp hov with hov | hov
          · exact Or.inl ⟨ov, hov, h⟩
          · refine Or.inr (List.mem_append.mpr (Or.inl ?_))
            rw [h, hfix ov hov]; exact hov
        · exact Or.inr (List.mem_append.mpr (Or.inr h))
    by_cases hc : (∃ ov ∈ orig, ToLower c = ToLower ov) ∨ ToLower c ∈ fixed ++ m
    · rw [if_pos hc, if_pos (hiff.mp hc)]
      exact ih m
    · rw [if_neg hc, if_neg (fun h => hc (hiff.mpr h)), List.append_assoc]
      exact ih (m ++ [ToLower c])

/-- Merging in two steps equals merging once, for an idempotent `ToLower`. -/
theorem uniqAppend_uniqAppend (ToLower : Str → Str)
    (hidem : ∀ s, ToLower (ToLower s) = ToLower s) (existing a b : List Str) :
    uniqAppend ToLower (uniqAppend ToLower existing a) b
      = uniqAppend ToLower existing (a ++ b) := by
  have h := foldl_uniqueStep_shift ToLower existing (newUniqueElements ToLower existing a)
    (newUniqueElements_lower ToLower hidem existing a) b []
  simp only [List.append_nil] at h
  have hab : newUniqueElements ToLower existing (a ++ b)
      = b.foldl (uniqueStep ToLower existing) (newUniqueElements ToLower existing a) := by
    simp only [newUniqueElements, List.foldl_append]
  rw [uniqAppend, uniqAppend, uniqAppend, hab, h, List.append_assoc]
  rfl

theorem uniqAppend_nil (ToLower : Str → Str) (existing : List Str) :
    uniqAppend ToLower existing [] = existing := by
  simp [uniqAppend, newUniqueElements]

/-- The loop of `namesFromCert` over the DNS names, from any `subdomains`. -/
theorem foldl_dnsNameStep (ToLower : Str → Str)
    (hidem : ∀ s, ToLower (ToLower s) = ToLower s) :
    ∀ (names subdomains : List Str),
      names.foldl (dnsNameStep ToLower) subdomains
        = uniqAppend ToLower subdomains
            ((names.map removeAsteriskLabel).filter (fun n => n != [])) := by
  intro names
  induction names with
  | nil => intro subdomains; simp [uniqAppend_nil]
  | cons name rest ih =>
    intro subdomains
    rw [List.foldl_cons, ih, dnsNameStep]
    by_cases hn : removeAsteriskLabel name = []
    · simp [hn]
    · have hf : ((name :: rest).map removeAsteriskLabel).filter (fun n => n != [])
          = [removeAsteriskLabel name]
            ++ (rest.map removeAsteriskLabel).filter (fun n => n != []) := by
        rw [List.map_cons, List.filter_cons_of_pos (by simpa using hn)]
        rfl
      rw [hf, ← uniqAppend_uniqAppend ToLower hidem]
      simp only [ne_eq, hn, not_false_eq_true, if_true]

/-- A merge keeps a duplicate-free list duplicate-free, up to letter case. -/
theorem foldl_uniqueStep_nodup (ToLower : Str → Str)
    (hidem : ∀ s, ToLower (ToLower s) = ToLower s) (orig : List Str) :
    ∀ (add n : List Str), ((orig ++ n).map ToLower).Nodup → (∀ x ∈ n, ToLower x = x) →
      ((orig ++ add.foldl (uniqueStep ToLower orig) n).map ToLower).Nodup := by
  intro add
  induction add with
  | nil => intro n hn _; exact hn
  | cons c rest ih =>
    intro n hn hfix
    rw [List.foldl_cons, uniqueStep_eq]
    by_cases hc : (∃ ov ∈ orig, ToLower c = ToLower ov) ∨ ToLower c ∈ n
    · rw [if_pos hc]; exact ih n hn hfix
    · rw [if_neg hc]
      have hfix2 : ∀ x ∈ n ++ [ToLower c], ToLower x = x := by
        intro x hx
        rcases List.mem_append.mp hx with h | h
        · exact hfix x h
        · rw [List.mem_singleton.mp h]; exact hidem c
      apply ih _ _ hfix2
      rw [← List.append_assoc, List.map_append, List.map_cons, List.map_nil, hidem]
      rw [List.nodup_append]
      refine ⟨hn, List.nodup_singleton _, ?_⟩
      intro x hx hx2
      rw [List.mem_singleton] at hx2
      subst hx2
      rw [List.map_append, List.mem_append] at hx
      rcases hx with hx | hx
      · obtain ⟨ov, hov, h⟩ := List.mem_map.mp hx
        exact hc (Or.inl ⟨ov, hov, h.symm⟩)
      · obtain ⟨y, hy, h⟩ := List.mem_map.mp hx
        rw [hfix y hy] at h
        exact hc (Or.inr (h ▸ hy))

theorem nameSet_iff_nodup (ToLower : Str → Str) (names : List Str) :
    NameSet ToLower names ↔ (names.map ToLower).Nodup := by
  rw [List.Nodup, List.pairwise_map]

/-- A merge into a Name Set is a Name Set, for an idempotent `ToLower`. -/
theorem uniqAppend_nameSet (ToLower : Str → Str)
    (hidem : ∀ s, ToLower (ToLower s) = ToLower s) (orig add : List Str)
    (horig : NameSet ToLower orig) : NameSet ToLower (uniqAppend ToLower orig add) := by
  rw [nameSet_iff_nodup] at horig ⊢
  exact foldl_uniqueStep_nodup ToLower hidem orig add [] (by simpa using horig) (by simp)

theorem commonNameList_nameSet (ToLower : Str → Str) (cert : Certificate) :
    NameSet ToLower (commonNameList cert) := by
  simp only [commonNameList]
  split <;> simp [NameSet]

/-- The list returned by `namesFromCert` is a Name Set, for an idempotent
`ToLower`. -/
theorem namesFromCert_nameSet_aux (ToLower : Str → Str)
    (hidem : ∀ s, ToLower (ToLower s) = ToLower s) (cert : Certificate) :
    NameSet ToLower (namesFromCert ToLower cert) := by
  rw [namesFromCert, foldl_dnsNameStep ToLower hidem]
  exact uniqAppend_nameSet ToLower hidem _ _ (commonNameList_nameSet ToLower cert)

/-! ## Lemmas on `getCert` -/

theorem portStep_certs (ToLower : Str → Str) (dialContext : Str → Dial) (addr : Str)
    (st : FetchState) (port : Str) :
    (portStep ToLower dialContext addr st port).certs
      = st.certs ++ portNames ToLower dialContext addr port := by
  unfold portStep portNames
  cases h : dialContext (addr ++ [':'] ++ port) with
  | refused => simp
  | connected handshake => cases handshake <;> simp

theorem foldl_portStep_certs (ToLower : Str → Str) (dialContext : Str → Dial) (addr : Str) :
    ∀ (ports : List Str) (st : FetchState),
      (ports.foldl (portStep ToLower dialContext addr) st).certs
        = st.certs ++ (ports.map (portNames ToLower dialContext addr)).flatten := by
  intro ports
  induction ports with
  | nil => intro st; simp
  | cons port rest ih =>
    intro st
    rw [List.foldl_cons, ih, portStep_certs]
    simp

theorem portNames_nameSet (ToLower : Str → Str)
    (hidem : ∀ s, ToLower (ToLower s) = ToLower s) (dialContext : Str → Dial)
    (addr port : Str) : NameSet ToLower (portNames ToLower dialContext addr port) := by
  unfold portNames
  split
  · exact namesFromCert_nameSet_aux ToLower hidem _
  · simp [NameSet]

/-- No iteration of the port loop closes a connection: the connections open
after an iteration are those open before it, followed by the one it opened. -/
theorem portStep_openConns (ToLower : Str → Str) (dialContext : Str → Dial) (addr : Str)
    (st : FetchState) (port : Str) :
    st.openConns <+: (portStep ToLower dialContext addr st port).openConns := by
  unfold portStep
  cases h : dialContext (addr ++ [':'] ++ port) with
  | refused => simp
  | connected handshake => cases handshake <;> simp

/-! ## Lemmas on `ToLowerASCII` -/

theorem lowerASCII_idem (c : Char) : lowerASCII (lowerASCII c) = lowerASCII c := by
  by_cases h : 65 ≤ c.toNat ∧ c.toNat ≤ 90
  · have hc : lowerASCII c = Char.ofNat (c.toNat + 32) := by
      rw [lowerASCII, if_pos h]
    rw [hc]
    obtain ⟨h1, h2⟩ := h
    generalize c.toNat = n at h1 h2
    interval_cases n <;> decide
  · have hc : lowerASCII c = c := by rw [lowerASCII, if_neg h]
    rw [hc, hc]

theorem ToLowerASCII_idem (s : Str) : ToLowerASCII (ToLowerASCII s) = ToLowerASCII s := by
  simp [ToLowerASCII, List.map_map, Function.comp_def, lowerASCII_idem]

/-! ## The examples of the specification -/

theorem removeAsteriskLabel_examples :
    removeAsteriskLabel "*.example.com".data = "example.com".data
      ∧ removeAsteriskLabel "www.example.com".data = "www.example.com".data
      ∧ removeAsteriskLabel "*".data = []
      ∧ removeAsteriskLabel "localhost".data = [] := by
  decide

theorem uniqAppend_examples :
    uniqAppend ToLowerASCII [] ["A.com".data, "a.com".data, "b.com".data]
        = ["a.com".data, "b.com".data]
      ∧ uniqAppend ToLowerASCII ["x.com".data] ["X.com".data, "y.com".data]
        = ["x.com".data, "y.com".data] := by
  decide

theorem namesFromCert_example :
    namesFromCert ToLowerASCII
        { SubjectNames := [{ oid := [2, 5, 4, 3], Value := "*.example.com".data }],
          DNSNames := ["www.example.com".data, "*.test.com".data, "*.example.com".data] }
      = ["example.com".data, "www.example.com".data, "test.com".data] := by
  decide

/-! ## Theorems on `removeAsteriskLabel` -/

/-- C3: on the two-label domain `a.*`, whose rightmost label is `*`, the scan
stops at once, `index` keeps its zero value and `removeAsteriskLabel` returns
the domain unchanged, `*` label included, instead of the empty string. -/
theorem removeAsteriskLabel_trailing_star :
    Split "a.*".data = ["a".data, star]
      ∧ scanLabels (Split "a.*".data) 2 0 = 0
      ∧ removeAsteriskLabel "a.*".data = "a.*".data
      ∧ removeAsteriskLabel "a.*".data ≠ [] := by
  decide

/-- C5, as stated, fails: the domain ` *.example.com` has three labels, none
of them equal to `*` (the first is ` *`), and is not returned unchanged. -/
theorem removeAsteriskLabel_padded_star :
    2 ≤ (Split " *.example.com".data).length
      ∧ star ∉ Split " *.example.com".data
      ∧ removeAsteriskLabel " *.example.com".data = "example.com".data
      ∧ removeAsteriskLabel " *.example.com".data ≠ " *.example.com".data := by
  decide

/-- C5, amended: a domain of at least two labels none of which equals `*`
after `strings.TrimSpace` is returned unchanged. -/
theorem removeAsteriskLabel_unchanged (s : Str) (h2 : 2 ≤ (Split s).length)
    (hno : ∀ l ∈ Split s, TrimSpace l ≠ star) :
    removeAsteriskLabel s = s := by
  rw [removeAsteriskLabel_no_star s hno, if_neg (by omega)]

/-- The amended C5 at `www.example.com`. -/
theorem removeAsteriskLabel_unchanged_witness :
    2 ≤ (Split "www.example.com".data).length
      ∧ (∀ l ∈ Split "www.example.com".data, TrimSpace l ≠ star)
      ∧ removeAsteriskLabel "www.example.com".data = "www.example.com".data :=
  ⟨by decide, by decide,
    removeAsteriskLabel_unchanged "www.example.com".data (by decide) (by decide)⟩

/-- C6: when no label has leading or trailing white space and the rightmost
label is not `*`, there is at least one label to the right of the rightmost
`*` label; `removeAsteriskLabel` returns these labels joined by dots when
they are at least two and the empty string when there is exactly one; hence
`*.` followed by a domain `d` of at least two labels, none of them `*`,
yields `d`. -/
theorem removeAsteriskLabel_rightOfLastStar (s : Str)
    (hws : ∀ l ∈ Split s, TrimSpace l = l)
    (hlast : (Split s).getLast? ≠ some star) :
    1 ≤ (rightOfLastStar (Split s)).length
      ∧ (2 ≤ (rightOfLastStar (Split s)).length →
          removeAsteriskLabel s = Join (rightOfLastStar (Split s)))
      ∧ ((rightOfLastStar (Split s)).length = 1 → removeAsteriskLabel s = [])
      ∧ (∀ d : Str, s = star ++ ['.'] ++ d → star ∉ Split d → 2 ≤ (Split d).length →
          removeAsteriskLabel s = d) := by
  have hsplit := rdropWhile_append_rtakeWhile (fun l => l != star) (Split s)
  have hsuf : ∀ x ∈ rightOfLastStar (Split s), TrimSpace x ≠ star := by
    intro x hx
    have hp := List.mem_rtakeWhile_imp hx
    have hin : x ∈ Split s := (List.rtakeWhile_suffix _ _).subset hx
    rw [hws x hin]
    simpa using hp
  have hne : rightOfLastStar (Split s) ≠ [] := by
    intro h0
    rw [rightOfLastStar, List.rtakeWhile_eq_nil_iff] at h0
    have := h0 (Split_ne_nil s)
    apply hlast
    rw [List.getLast?_eq_getLast _ (Split_ne_nil s)]
    simpa using this
  have hmain : removeAsteriskLabel s =
      if (rightOfLastStar (Split s)).length = 1 then [] else Join (rightOfLastStar (Split s)) := by
    by_cases hpre : (Split s).rdropWhile (fun l => l != star) = []
    · have hall : rightOfLastStar (Split s) = Split s := by
        have := hsplit; rw [hpre, List.nil_append] at this; exact this
      rw [removeAsteriskLabel_no_star s (by rw [← hall]; exact hsuf), hall, Join_Split]
    · have hl := List.rdropWhile_last_not (fun l => l != star) (Split s) hpre
      have hstar : ((Split s).rdropWhile (fun l => l != star)).getLast hpre = star := by
        simpa using hl
      have hdec := List.dropLast_append_getLast hpre
      rw [hstar] at hdec
      have hS : Split s = ((Split s).rdropWhile (fun l => l != star)).dropLast
          ++ star :: rightOfLastStar (Split s) := by
        conv_lhs => rw [← hsplit, ← hdec]
        simp [rightOfLastStar]
      have htrim : TrimSpace star = star := by decide
      exact removeAsteriskLabel_after_star s _ _ star hS htrim hsuf hne
  refine ⟨?_, ?_, ?_, ?_⟩
  · exact List.length_pos.mpr hne
  · intro h2
    rw [hmain, if_neg (by omega)]
  · intro h1
    rw [hmain, if_pos h1]
  · intro d hd hno h2
    have hS : Split s = star :: Split d := by rw [hd]; exact Split_star_dot d
    have hr : rightOfLastStar (Split s) = Split d := by
      rw [hS]; exact rightOfLastStar_append [] (Split d) hno
    rw [hmain, hr, if_neg (by omega), Join_Split]

/-- C6 at `a.*.example.com`: the labels right of the `*` are `example`, `com`. -/
theorem removeAsteriskLabel_rightOfLastStar_witness :
    (∀ l ∈ Split "a.*.example.com".data, TrimSpace l = l)
      ∧ (Split "a.*.example.com".data).getLast? ≠ some star
      ∧ rightOfLastStar (Split "a.*.example.com".data) = ["example".data, "com".data]
      ∧ removeAsteriskLabel "a.*.example.com".data
          = Join (rightOfLastStar (Split "a.*.example.com".data)) :=
  ⟨by decide, by decide, by decide,
    (removeAsteriskLabel_rightOfLastStar "a.*.example.com".data
      (by decide) (by decide)).2.1 (by decide)⟩

/-! ## Theorems on the merge and on `namesFromCert` -/

/-- C1: `uniqAppend` returns `existing` followed by the lower-cased
candidates, in their order, that the specification keeps: those whose
lower-cased form equals the lower-cased form of no entry of `existing` and of
no earlier candidate; `existing` is a prefix of the result. -/
theorem uniqAppend_eq_mergeSpec (ToLower : Str → Str) (existing candidates : List Str) :
    uniqAppend ToLower existing candidates = mergeSpec ToLower existing candidates
      ∧ existing <+: uniqAppend ToLower existing candidates := by
  refine ⟨?_, ?_⟩
  · rw [uniqAppend, mergeSpec, newUniqueElements,
      foldl_uniqueStep_spec ToLower existing candidates [] [] (by simp)]
    rfl
  · exact List.prefix_append _ _

/-- C10: for an idempotent `ToLower`, merging `a` and then `b` equals merging
`a ++ b`, and `namesFromCert` returns the single merge of the non-empty
stripped DNS names into the initial Common Name list. -/
theorem uniqAppend_incremental (ToLower : Str → Str)
    (hidem : ∀ s, ToLower (ToLower s) = ToLower s) :
    (∀ existing a b : List Str,
        uniqAppend ToLower (uniqAppend ToLower existing a) b
          = uniqAppend ToLower existing (a ++ b))
      ∧ (∀ cert : Certificate,
          namesFromCert ToLower cert
            = uniqAppend ToLower (commonNameList cert) (strippedDNSNames cert)) := by
  refine ⟨fun existing a b => uniqAppend_uniqAppend ToLower hidem existing a b, ?_⟩
  intro cert
  rw [namesFromCert, foldl_dnsNameStep ToLower hidem]
  rfl

/-- C10 at concrete lists, with `ToLowerASCII` for `ToLower`. -/
theorem uniqAppend_incremental_witness :
    uniqAppend ToLowerASCII (uniqAppend ToLowerASCII ["x.com".data] ["X.com".data, "Y.com".data])
        ["y.com".data, "z.com".data]
      = uniqAppend ToLowerASCII ["x.com".data]
          (["X.com".data, "Y.com".data] ++ ["y.com".data, "z.com".data]) :=
  (uniqAppend_incremental ToLowerASCII ToLowerASCII_idem).1 _ _ _

/-- C4: for an idempotent `ToLower`, no two entries of the list returned by
`namesFromCert` are equal under case-insensitive comparison. -/
theorem namesFromCert_nameSet (ToLower : Str → Str)
    (hidem : ∀ s, ToLower (ToLower s) = ToLower s) (cert : Certificate) :
    NameSet ToLower (namesFromCert ToLower cert) :=
  namesFromCert_nameSet_aux ToLower hidem cert

/-- C4 at a certificate whose names differ in letter case and by a wildcard. -/
theorem namesFromCert_nameSet_witness :
    namesFromCert ToLowerASCII mixedCaseCert = ["Example.COM".data, "www.example.com".data]
      ∧ NameSet ToLowerASCII (namesFromCert ToLowerASCII mixedCaseCert) :=
  ⟨by decide, namesFromCert_nameSet ToLowerASCII ToLowerASCII_idem mixedCaseCert⟩

/-! ## Theorems on `getCert` -/

/-- C2, as stated, fails: when the ports `443` and `8443` present the same
certificate, `getCert` returns its name twice. -/
theorem getCert_duplicates :
    getCert ToLowerASCII sameCertDial "example.com".data ["443".data, "8443".data]
        = ["example.com".data, "example.com".data]
      ∧ ¬ NameSet ToLowerASCII
          (getCert ToLowerASCII sameCertDial "example.com".data ["443".data, "8443".data]) := by
  decide

/-- C2, amended: `getCert` returns the concatenation, in port order, of the
names each port contributes; for an idempotent `ToLower` the contribution of
each single port is a Name Set. -/
theorem getCert_eq_flatten (ToLower : Str → Str)
    (hidem : ∀ s, ToLower (ToLower s) = ToLower s) (dialContext : Str → Dial)
    (addr : Str) (ports : List Str) :
    getCert ToLower dialContext addr ports
        = (ports.map (portNames ToLower dialContext addr)).flatten
      ∧ ∀ port ∈ ports, NameSet ToLower (portNames ToLower dialContext addr port) := by
  refine ⟨?_, fun port _ => portNames_nameSet ToLower hidem dialContext addr port⟩
  rw [getCert, getCertLoop, foldl_portStep_certs]
  rfl

/-- The amended C2 at two ports that present the same certificate. -/
theorem getCert_eq_flatten_witness :
    getCert ToLowerASCII sameCertDial "example.com".data ["443".data, "8443".data]
      = ([portNames ToLowerASCII sameCertDial "example.com".data "443".data,
          portNames ToLowerASCII sameCertDial "example.com".data "8443".data]).flatten :=
  (getCert_eq_flatten ToLowerASCII ToLowerASCII_idem sameCertDial "example.com".data
    ["443".data, "8443".data]).1

/-- C7: with two ports that both accept the connection, the connection opened
for the first port is still open when the iteration for the second port
starts, both are open when the loop ends, and they are closed only by the
deferred calls at return. -/
theorem getCert_connections_accumulate :
    (getCertLoop ToLowerASCII sameCertDial "example.com".data ["443".data]).openConns = [0]
      ∧ (getCertLoop ToLowerASCII sameCertDial "example.com".data
          ["443".data, "8443".data]).openConns = [0, 1]
      ∧ (getCertLoop ToLowerASCII sameCertDial "example.com".data
          ["443".data, "8443".data]).deferred
          = [Deferred.close 1, Deferred.cancel, Deferred.close 0, Deferred.cancel]
      ∧ openAfterReturn ToLowerASCII sameCertDial "example.com".data
          ["443".data, "8443".data] = [] := by
  decide

/-! ## Theorem on `nextResolverAddress` -/

/-- C8: the pool has 8 entries; for every index `k` below 8 exactly `2^60` of
the values `r` below `2^63` give `r % 8 = k`, and every value of `r` selects an
entry of the pool. -/
theorem nextResolverAddress_uniform (k : Nat) (hk : k < 8) :
    PublicResolvers.length = 8
      ∧ ((Finset.range (2 ^ 63)).filter (fun r => resolverIndex r = k)).card = 2 ^ 60
      ∧ (∀ r : Nat, resolverIndex r < PublicResolvers.length)
      ∧ (∀ r : Nat, resolverIndex r = k → nextResolverAddress r = PublicResolvers.get? k)
      ∧ (∀ r : Nat, (nextResolverAddress r).isSome = true) := by
  have hlen : PublicResolvers.length = 8 := rfl
  have hidx : ∀ r : Nat, resolverIndex r < PublicResolvers.length := by
    intro r
    rw [resolverIndex, hlen]
    exact Nat.mod_lt _ (by norm_num)
  refine ⟨hlen, ?_, hidx, ?_, ?_⟩
  · have hcount := Nat.count_modEq_card (2 ^ 63) (show 0 < 8 by norm_num) k
    rw [Nat.count_eq_card_filter_range] at hcount
    have hfilter : (Finset.range (2 ^ 63)).filter (fun r => resolverIndex r = k)
        = (Finset.range (2 ^ 63)).filter (fun r => r ≡ k [MOD 8]) := by
      apply Finset.filter_congr
      intro r _
      rw [resolverIndex, hlen, Nat.ModEq, Nat.mod_eq_of_lt hk]
    rw [hfilter, hcount, Nat.mod_eq_of_lt hk]
    norm_num
  · intro r hr
    rw [nextResolverAddress, hr]
  · intro r
    rw [nextResolverAddress, List.get?_eq_getElem?, List.getElem?_eq_getElem (hidx r)]
    rfl

/-- C8 at the index `3`. -/
theorem nextResolverAddress_uniform_witness :
    ((Finset.range (2 ^ 63)).filter (fun r => resolverIndex r = 3)).card = 2 ^ 60
      ∧ nextResolverAddress 11 = some "77.88.8.8:53".data :=
  ⟨(nextResolverAddress_uniform 3 (by decide)).2.1, by decide⟩

end Certsubs
